import Mathlib

/-!
Verification of the Invoisa backend core (src/backend/app/main.py).

The Python code is shallowly embedded in Lean:
* Python floats are modelled by exact rationals (`ℚ`); Python's `round`
  (banker's rounding, round-half-to-even) is modelled by `rhe`.
* Python strings are modelled by `String` / `List Char`; `str.replace` and
  the cleanup regex `\x7b[a-zA-Z0-9_]+\x7d` are modelled by fuel-indexed
  structural recursions so that concrete instances evaluate by `decide`.
* `datetime.fromisoformat` is an external library call; it is abstracted as
  a parameter `fromiso : String → Option Int` (a parse that either yields a
  timestamp or fails with `ValueError`).
* Python `list.sort(key=..., reverse=True)` is a stable descending sort; it
  is modelled by `List.insertionSort` with the reversed key order, which has
  exactly that contract (permutation, descending, ties keep input order).
-/

/-! ## Rounding (Python `round`: round-half-to-even) -/

/-- Round-half-to-even of a rational to an integer, as Python's `round`. -/
def rhe (x : ℚ) : ℤ :=
  if x - ⌊x⌋ < 1/2 then ⌊x⌋
  else if 1/2 < x - ⌊x⌋ then ⌊x⌋ + 1
  else if ⌊x⌋ % 2 = 0 then ⌊x⌋ else ⌊x⌋ + 1

/-- Python `round(x, 2)`: round to two decimal places. -/
def round2 (x : ℚ) : ℚ := (rhe (100 * x) : ℚ) / 100

/-! ## Risk scorer (`risk_score`, main.py lines 129-133) and impact -/

/-- `risk_score` from main.py:
`d_norm = min(1.0, days/120.0)`, `a_norm = min(1.0, amount/200000.0)`,
`round(max(0.05, min(0.95, 0.45*d_norm + 0.55*a_norm)), 2)`. -/
def risk_score (days_overdue_val : ℕ) (amount_cents : ℕ) : ℚ :=
  round2 (max 0.05 (min 0.95
    (0.45 * min 1.0 ((days_overdue_val : ℚ) / 120.0) +
     0.55 * min 1.0 ((amount_cents : ℚ) / 200000.0))))

/-- Reference definition of the score, written from the specification text:
normalize days against 120 and amount against 200000, combine as the
weighted sum `0.45*d_norm + 0.55*a_norm`, clamp to the interval
`[0.05, 0.95]`, round to 2 decimal places. -/
def score_ref (days : ℕ) (amount : ℕ) : ℚ :=
  round2 (min 0.95 (max 0.05
    (0.45 * min 1 ((days : ℚ) / 120) + 0.55 * min 1 ((amount : ℚ) / 200000))))

/-- `impact = int(round(amount_cents * score))` (main.py line 189). -/
def impact_of (amount_cents : ℤ) (score : ℚ) : ℤ :=
  rhe ((amount_cents : ℚ) * score)

/-! ## ISO parsing and enrichment error model (`parse_iso`, `days_overdue`) -/

/-- A Python exception escaping the enrichment code: either a FastAPI
`HTTPException(status, detail)` or an uncaught `ValueError` (which FastAPI
turns into a 500 server error, with no detail echoed to the client). -/
inductive PyExc where
  | http (status : ℕ) (detail : String)
  | valueError (arg : String)
deriving DecidableEq

/-- Fuel-indexed worker for Python `str.replace(pat, rep)` on character
lists: replace every leftmost, non-overlapping occurrence of `pat`.  The
fuel is the length of the string, consumed one unit per step. -/
def replaceAllGo (pat rep : List Char) : ℕ → List Char → List Char
  | _, [] => []
  | 0, s => s
  | fuel + 1, c :: cs =>
    if pat ≠ [] ∧ pat.isPrefixOf (c :: cs) then
      rep ++ replaceAllGo pat rep fuel ((c :: cs).drop pat.length)
    else
      c :: replaceAllGo pat rep fuel cs

/-- Python `s.replace(pat, rep)` on character lists (for nonempty `pat`). -/
def replaceAllChars (pat rep s : List Char) : List Char :=
  replaceAllGo pat rep s.length s

/-- Python `s.replace(pat, rep)` on strings. -/
def pyReplace (s pat rep : String) : String :=
  String.mk (replaceAllChars pat.data rep.data s.data)

/-- Python `s.endswith("Z")`. -/
def pyEndsWithZ (s : String) : Bool := s.data.getLast? == some 'Z'

/-- `parse_iso` from main.py lines 115-121, with `datetime.fromisoformat`
abstracted as `fromiso`.  For a string ending in "Z" the code calls
`fromisoformat` on `s.replace("Z", "+00:00")` outside of any try/except, so
a parse failure there escapes as an uncaught `ValueError` (carrying the
string handed to the parser); only the non-"Z" branch wraps the call and
converts failure to an HTTP 400 whose detail carries the offending value. -/
def parse_iso (fromiso : String → Option ℤ) (s : String) : Except PyExc ℤ :=
  if pyEndsWithZ s then
    match fromiso (pyReplace s "Z" "+00:00") with
    | some d => Except.ok d
    | none => Except.error (PyExc.valueError (pyReplace s "Z" "+00:00"))
  else
    match fromiso s with
    | some d => Except.ok d
    | none => Except.error (PyExc.http 400 ("Invalid ISO datetime: " ++ s))

/-- `days_overdue` from main.py lines 123-127: parse the due date, subtract
from `now` and clamp negative day counts to 0.  Timestamps are modelled as
integer epoch seconds; `timedelta.days` floors, hence `Int.fdiv`. -/
def days_overdue_fn (fromiso : String → Option ℤ) (now : ℤ) (due_at_iso : String) :
    Except PyExc ℤ :=
  match parse_iso fromiso due_at_iso with
  | Except.error e => Except.error e
  | Except.ok due => Except.ok (max 0 (Int.fdiv (now - due) 86400))

/-! ## Enriched invoice records and the query pipeline (`list_invoices`) -/

/-- One enriched invoice record as built by `list_invoices` (main.py
lines 190-200). -/
structure Enriched where
  id : ℤ
  customer : String
  customer_email : Option String
  number : String
  amount_cents : ℤ
  days_overdue : ℕ
  score : ℚ
  impact : ℤ
  status_raw : String
deriving DecidableEq

/-- The filter predicate `filt` from main.py lines 202-213, transliterated
clause by clause (each failing clause returns `False`). -/
def filt (status : Option String) (aging_min min_amount max_amount : Option ℤ)
    (x : Enriched) : Bool :=
  if status == some "overdue" && decide (x.days_overdue ≤ 0) then false
  else if status == some "open" && decide (0 < x.days_overdue) then false
  else if aging_min.elim false (fun a => decide ((x.days_overdue : ℤ) < a)) then false
  else if min_amount.elim false (fun m => decide (x.amount_cents < m)) then false
  else if max_amount.elim false (fun m => decide (m < x.amount_cents)) then false
  else true

/-- Stable descending sort by an integer key: the model of Python
`list.sort(key=..., reverse=True)`. -/
def sortDescBy (key : Enriched → ℤ) (l : List Enriched) : List Enriched :=
  List.insertionSort (fun a b => key b ≤ key a) l

/-- The sort dispatch of `list_invoices` (main.py lines 216-221): sort by
amount for "amount_desc", by days for "days_desc", and by impact otherwise. -/
def sortStep (sort : String) (l : List Enriched) : List Enriched :=
  if sort == "amount_desc" then sortDescBy (fun x => x.amount_cents) l
  else if sort == "days_desc" then sortDescBy (fun x => (x.days_overdue : ℤ)) l
  else sortDescBy (fun x => x.impact) l

/-- The filter/sort/paginate tail of `list_invoices` (main.py lines
215-226): filter, sort, take `total = len(filtered)`, return the page
`filtered[offset : offset + limit]` together with the total (the total is
surfaced out-of-band, as the `X-Total-Count` response header). -/
def query_invoices (l : List Enriched) (status : Option String)
    (aging_min min_amount max_amount : Option ℤ) (sort : String)
    (limit offset : ℕ) : List Enriched × ℕ :=
  let filtered := l.filter (filt status aging_min min_amount max_amount)
  let sorted := sortStep sort filtered
  ((sorted.drop offset).take limit, sorted.length)

/-! ## Amount formatting (`_format_amount`, main.py lines 338-342) -/

/-- Digits of `n` in base 10 (via `Nat.toDigits`). -/
def digitsOf (n : ℕ) : List Char := Nat.toDigits 10 n

/-- Insert a comma after every three characters, working on the reversed
digit list (so commas separate thousands groups from the right). -/
def insertCommasRev : List Char → List Char
  | d1 :: d2 :: d3 :: d4 :: rest => d1 :: d2 :: d3 :: ',' :: insertCommasRev (d4 :: rest)
  | l => l

/-- Decimal rendering of a natural number with thousands separators, as
Python's `format(n, ",")`. -/
def commaFmt (n : ℕ) : String :=
  String.mk (insertCommasRev (digitsOf n).reverse).reverse

/-- Exactly two decimal digits for the cents part. -/
def twoDigits (n : ℕ) : String :=
  if n < 10 then String.mk ('0' :: digitsOf n) else String.mk (digitsOf n)

/-- `_format_amount` from main.py: `""` for an absent amount, otherwise
`f"\x7b(amount_cents/100):,.2f\x7d \x7bcode\x7d"` with
`code = currency or "USD"` (so an absent or empty currency falls back to
"USD").  The `/100` float division and 2-decimal formatting are modelled
exactly on the integer amount. -/
def _format_amount (amount_cents : Option ℤ) (currency : Option String) : String :=
  match amount_cents with
  | none => ""
  | some a =>
    let code := match currency with
      | none => "USD"
      | some c => if c = "" then "USD" else c
    (if a < 0 then "-" else "") ++
      commaFmt (a.natAbs / 100) ++ "." ++ twoDigits (a.natAbs % 100) ++ " " ++ code

/-! ## Template renderer (`_safe_format`, main.py lines 344-349) -/

/-- A value in the render context: Python text or integer. -/
inductive PyVal where
  | s (v : String)
  | i (v : ℤ)
deriving DecidableEq

/-- Python `str(v)`. -/
def pyStr : PyVal → String
  | PyVal.s v => v
  | PyVal.i v => toString v

/-- `"" if v is None else str(v)` from `_safe_format`. -/
def strOfVal : Option PyVal → String
  | none => ""
  | some v => pyStr v

/-- A render context: placeholder names mapped to values, in insertion
order (Python dict iteration order). -/
abbrev Ctx := List (String × Option PyVal)

/-- A character allowed in a placeholder name: `[a-zA-Z0-9_]`. -/
def isNameChar (c : Char) : Bool := c.isAlpha || c.isDigit || c == '_'

/-- Fuel-indexed worker for the cleanup pass
`re.sub(r"\x7b[a-zA-Z0-9_]+\x7d", "", out)`: scanning left to right, each
occurrence of an opening brace followed by one or more name characters and
a closing brace is deleted; scanning resumes after the deleted token. -/
def stripGo : ℕ → List Char → List Char
  | _, [] => []
  | 0, s => s
  | fuel + 1, c :: cs =>
    if c = '{' ∧ cs.takeWhile isNameChar ≠ [] ∧
        (cs.dropWhile isNameChar).head? = some '}' then
      stripGo fuel (cs.dropWhile isNameChar).tail
    else
      c :: stripGo fuel cs

/-- The cleanup regex pass of `_safe_format`. -/
def stripTokens (s : List Char) : List Char := stripGo s.length s

/-- `_safe_format` from main.py: for each context entry `(k, v)` in order,
replace every occurrence of `"\x7b" + k + "\x7d"` by `"" if v is None else
str(v)`; then delete every remaining `\x7bname\x7d` token. -/
def _safe_format (template : String) (ctx : Ctx) : String :=
  String.mk (stripTokens (ctx.foldl
    (fun out kv => replaceAllChars ('{' :: kv.1.data ++ ['}']) (strOfVal kv.2).data out)
    template.data))

/-! ## Render context assembly (`render_template`, main.py lines 404-429) -/

/-- The request body of `/email/render` (model `RenderIn`), restricted to
the fields that feed the render context. -/
structure RenderIn where
  customer_name : Option String := none
  customer_email : Option String := none
  invoice_number : Option String := none
  amount_cents : Option ℤ := none
  currency : Option String := none
  due_date : Option String := none
  days_overdue : Option ℤ := none
  company_name : Option String := some "Accounts Receivable"
  promised_date : Option String := none

/-- Python `x or d` for an optional string (both `None` and `""` are
falsy). -/
def pyOr (o : Option String) (d : String) : String :=
  match o with
  | none => d
  | some s => if s = "" then d else s

/-- The `ctxt` dictionary built by `render_template` (main.py lines
415-427), in insertion order.  `date.today().isoformat()` is passed in as
`today`. -/
def render_ctxt (b : RenderIn) (today : String) : Ctx :=
  [("customer_name", some (PyVal.s (pyOr b.customer_name ""))),
   ("customer_email", some (PyVal.s (pyOr b.customer_email ""))),
   ("invoice_number", some (PyVal.s (pyOr b.invoice_number ""))),
   ("amount_cents", some (match b.amount_cents with
     | some i => PyVal.i i
     | none => PyVal.s "")),
   ("amount_usd", some (PyVal.s (_format_amount b.amount_cents b.currency))),
   ("currency", some (PyVal.s (pyOr b.currency "USD"))),
   ("due_date", some (PyVal.s (pyOr b.due_date ""))),
   ("days_overdue", some (match b.days_overdue with
     | some i => PyVal.i i
     | none => PyVal.s "")),
   ("company_name", some (PyVal.s (pyOr b.company_name "Accounts Receivable"))),
   ("today_date", some (PyVal.s today)),
   ("promised_date", some (PyVal.s (pyOr b.promised_date "")))]

/-! ## Template segment view (for the renderer specification) -/

/-- A template piece: literal text, or a placeholder `\x7bname\x7d`. -/
inductive Piece where
  | lit (s : String)
  | ph (n : String)
deriving DecidableEq

/-- The character rendering of one piece. -/
def pieceChars : Piece → List Char
  | Piece.lit s => s.data
  | Piece.ph n => '{' :: n.data ++ ['}']

/-- The character rendering of a template given as a list of pieces. -/
def piecesChars (ps : List Piece) : List Char :=
  (ps.map pieceChars).flatten

/-- Well-formed piece: a literal contains no opening brace; a placeholder
name is nonempty and made of name characters. -/
def wfPiece : Piece → Bool
  | Piece.lit s => s.data.all (fun c => c != '{')
  | Piece.ph n => !n.data.isEmpty && n.data.all isNameChar

/-- Well-formed context entry: the key is a nonempty placeholder name and
the textual form of the value contains no opening brace. -/
def wfEntry (kv : String × Option PyVal) : Bool :=
  !kv.1.data.isEmpty && kv.1.data.all isNameChar &&
    (strOfVal kv.2).data.all (fun c => c != '{')

/-- First-match lookup of a placeholder name in the context. -/
def lookupCtx (ctx : Ctx) (n : String) : Option (Option PyVal) :=
  (ctx.find? (fun kv => kv.1 == n)).map (fun kv => kv.2)

/-- Substitute one key: every placeholder piece for `k` becomes the literal
replacement text. -/
def substPiece (k : String) (v : String) : Piece → Piece
  | Piece.lit s => Piece.lit s
  | Piece.ph n => if n = k then Piece.lit v else Piece.ph n

/-- Substitute a whole context into a piece. -/
def substAll (ctx : Ctx) : Piece → Piece
  | Piece.lit s => Piece.lit s
  | Piece.ph n =>
    match lookupCtx ctx n with
    | some v => Piece.lit (strOfVal v)
    | none => Piece.ph n

/-- The specified result of rendering one piece: literals verbatim, known
placeholders as the textual form of their value, unknown placeholders as
empty text. -/
def resolvePiece (ctx : Ctx) : Piece → List Char
  | Piece.lit s => s.data
  | Piece.ph n =>
    match lookupCtx ctx n with
    | some v => (strOfVal v).data
    | none => []

/-! ## Lemmas: rounding -/

theorem rhe_floor_le (x : ℚ) : ⌊x⌋ ≤ rhe x := by
  unfold rhe; split_ifs <;> omega

theorem rhe_le_floor_add_one (x : ℚ) : rhe x ≤ ⌊x⌋ + 1 := by
  unfold rhe; split_ifs <;> omega

theorem rhe_mono {x y : ℚ} (h : x ≤ y) : rhe x ≤ rhe y := by
  have hf : ⌊x⌋ ≤ ⌊y⌋ := Int.floor_le_floor h
  rcases eq_or_lt_of_le hf with heq | hlt
  · unfold rhe
    rw [← heq]
    have hxy : x - ⌊x⌋ ≤ y - ⌊x⌋ := by linarith
    split_ifs <;> first | omega | linarith
  · have h1 := rhe_le_floor_add_one x
    have h2 := rhe_floor_le y
    omega

theorem rhe_intCast (n : ℤ) : rhe (n : ℚ) = n := by
  unfold rhe
  rw [Int.floor_intCast, if_pos (by norm_num : (n : ℚ) - n < 1/2)]

theorem round2_eq_of (x : ℚ) (n : ℤ) (h1 : (n : ℚ) ≤ 100 * x)
    (h2 : 100 * x < (n : ℚ) + 1/2) : round2 x = (n : ℚ) / 100 := by
  have hfl : ⌊100 * x⌋ = n := by
    rw [Int.floor_eq_iff]
    exact ⟨h1, by linarith⟩
  unfold round2 rhe
  rw [hfl, if_pos (by linarith : 100 * x - (n : ℚ) < 1/2)]

theorem round2_mono {x y : ℚ} (h : x ≤ y) : round2 x ≤ round2 y := by
  unfold round2
  have h1 : rhe (100 * x) ≤ rhe (100 * y) := rhe_mono (by linarith)
  have h2 : ((rhe (100 * x) : ℤ) : ℚ) ≤ ((rhe (100 * y) : ℤ) : ℚ) := by exact_mod_cast h1
  linarith

/-! ## Claim theorems: risk scorer -/

/-- C1: for all non-negative integer inputs, `risk_score` coincides with
the reference definition from the specification (normalize days against
120 and amount against 200000, weight `0.45`/`0.55`, clamp to
`[0.05, 0.95]`, round to 2 decimal places); in particular
`risk_score 30 145000 = 0.51` and the impact at that score is
`round(145000 * 0.51) = 73950`. -/
theorem risk_score_matches_reference :
    (∀ d a : ℕ, risk_score d a = score_ref d a) ∧
    risk_score 30 145000 = 0.51 ∧
    impact_of 145000 (risk_score 30 145000) = 73950 := by
  have hscore : risk_score 30 145000 = 0.51 := by
    unfold risk_score
    rw [round2_eq_of _ 51 (by norm_num [min_def, max_def]) (by norm_num [min_def, max_def])]
    norm_num
  refine ⟨?_, hscore, ?_⟩
  · intro d a
    unfold risk_score score_ref
    have hmm : min (0.95 : ℚ)
        (max 0.05 (0.45 * min 1 ((d : ℚ) / 120) + 0.55 * min 1 ((a : ℚ) / 200000))) =
        max 0.05 (min 0.95 (0.45 * min 1 ((d : ℚ) / 120) + 0.55 * min 1 ((a : ℚ) / 200000))) := by
      rw [min_max_distrib_left]
      norm_num
    rw [show (1.0 : ℚ) = 1 from by norm_num, show (120.0 : ℚ) = 120 from by norm_num,
        show (200000.0 : ℚ) = 200000 from by norm_num, hmm]
  · unfold impact_of
    rw [hscore]
    rw [show ((145000 : ℤ) : ℚ) * 0.51 = ((73950 : ℤ) : ℚ) from by norm_num]
    exact rhe_intCast 73950

/-- C8: `risk_score` is monotone non-decreasing in each argument
separately, bounded to `[0.05, 0.95]` for all non-negative inputs, and
takes the specified values at the five reference points. -/
theorem risk_score_monotone_bounded :
    (∀ d d' a : ℕ, d ≤ d' → risk_score d a ≤ risk_score d' a) ∧
    (∀ d a a' : ℕ, a ≤ a' → risk_score d a ≤ risk_score d a') ∧
    (∀ d a : ℕ, 0.05 ≤ risk_score d a ∧ risk_score d a ≤ 0.95) ∧
    risk_score 0 0 = 0.05 ∧ risk_score 120 0 = 0.45 ∧
    risk_score 0 200000 = 0.55 ∧ risk_score 120 200000 = 0.95 ∧
    risk_score 1000 1000000 = 0.95 := by
  have h05 : round2 0.05 = 0.05 := by
    rw [round2_eq_of _ 5 (by norm_num) (by norm_num)]; norm_num
  have h95 : round2 0.95 = 0.95 := by
    rw [round2_eq_of _ 95 (by norm_num) (by norm_num)]; norm_num
  refine ⟨?_, ?_, ?_, ?_, ?_, ?_, ?_, ?_⟩
  · intro d d' a h
    unfold risk_score
    apply round2_mono
    gcongr
  · intro d a a' h
    unfold risk_score
    apply round2_mono
    gcongr
  · intro d a
    unfold risk_score
    constructor
    · calc (0.05 : ℚ) = round2 0.05 := h05.symm
        _ ≤ _ := round2_mono (le_max_left _ _)
    · calc round2 _ ≤ round2 0.95 :=
          round2_mono (max_le (by norm_num) (min_le_left _ _))
        _ = 0.95 := h95
  · unfold risk_score
    rw [round2_eq_of _ 5 (by norm_num [min_def, max_def]) (by norm_num [min_def, max_def])]
    norm_num
  · unfold risk_score
    rw [round2_eq_of _ 45 (by norm_num [min_def, max_def]) (by norm_num [min_def, max_def])]
    norm_num
  · unfold risk_score
    rw [round2_eq_of _ 55 (by norm_num [min_def, max_def]) (by norm_num [min_def, max_def])]
    norm_num
  · unfold risk_score
    rw [round2_eq_of _ 95 (by norm_num [min_def, max_def]) (by norm_num [min_def, max_def])]
    norm_num
  · unfold risk_score
    rw [round2_eq_of _ 95 (by norm_num [min_def, max_def]) (by norm_num [min_def, max_def])]
    norm_num

/-- Witness for C8: the monotonicity parts applied at concrete inputs. -/
theorem risk_score_monotone_bounded_witness :
    risk_score 10 5 ≤ risk_score 20 5 ∧ risk_score 7 100 ≤ risk_score 7 200 :=
  ⟨risk_score_monotone_bounded.1 10 20 5 (by decide),
   risk_score_monotone_bounded.2.1 7 100 200 (by decide)⟩

/-! ## Claim theorems: enrichment error handling -/

/-- C2 (divergence): for an unparseable due-at string that ends in "Z"
(such as "2025-99-99T00:00:00Z"), the `fromisoformat` call sits outside the
try/except, so enrichment raises an uncaught `ValueError` instead of the
HTTP 400 carrying the offending value that the claim requires; only
unparseable strings NOT ending in "Z" produce the 400 with the offending
value in the detail. -/
theorem parse_iso_z_uncaught (fromiso : String → Option ℤ) (now : ℤ)
    (h : fromiso "2025-99-99T00:00:00+00:00" = none) :
    days_overdue_fn fromiso now "2025-99-99T00:00:00Z" =
      Except.error (PyExc.valueError "2025-99-99T00:00:00+00:00") ∧
    (∀ status detail, days_overdue_fn fromiso now "2025-99-99T00:00:00Z" ≠
      Except.error (PyExc.http status detail)) ∧
    (∀ s : String, pyEndsWithZ s = false → fromiso s = none →
      parse_iso fromiso s = Except.error (PyExc.http 400 ("Invalid ISO datetime: " ++ s))) := by
  have hrepl : pyReplace "2025-99-99T00:00:00Z" "Z" "+00:00" = "2025-99-99T00:00:00+00:00" := by
    decide
  have hz : pyEndsWithZ "2025-99-99T00:00:00Z" = true := by decide
  have hmain : days_overdue_fn fromiso now "2025-99-99T00:00:00Z" =
      Except.error (PyExc.valueError "2025-99-99T00:00:00+00:00") := by
    unfold days_overdue_fn parse_iso
    rw [if_pos hz, hrepl, h]
  refine ⟨hmain, ?_, ?_⟩
  · intro status detail
    rw [hmain]
    intro hcontra
    exact PyExc.noConfusion (Except.error.inj hcontra)
  · intro s hs hnone
    unfold parse_iso
    rw [hs, hnone]
    simp

/-- Witness for C2: a parser model on which "2025-99-99T00:00:00+00:00"
is unparseable. -/
theorem parse_iso_z_uncaught_witness :
    days_overdue_fn (fun _ => none) 0 "2025-99-99T00:00:00Z" =
      Except.error (PyExc.valueError "2025-99-99T00:00:00+00:00") :=
  (parse_iso_z_uncaught (fun _ => none) 0 rfl).1

/-! ## Claim theorems: query filter -/

/-- C3: `filt` with status "open" keeps exactly the records with
`days_overdue = 0`, and with status "overdue" exactly those with
`days_overdue > 0`, in both cases regardless of the stored status text;
`aging_min`, `min_amount` and `max_amount` are inclusive bounds combined
with the status filter by logical AND. -/
theorem filt_semantics :
    ∀ (am mn mx : Option ℤ) (x : Enriched),
      (filt (some "open") am mn mx x = true ↔
        x.days_overdue = 0 ∧
        (∀ a, am = some a → a ≤ (x.days_overdue : ℤ)) ∧
        (∀ m, mn = some m → m ≤ x.amount_cents) ∧
        (∀ m, mx = some m → x.amount_cents ≤ m)) ∧
      (filt (some "overdue") am mn mx x = true ↔
        0 < x.days_overdue ∧
        (∀ a, am = some a → a ≤ (x.days_overdue : ℤ)) ∧
        (∀ m, mn = some m → m ≤ x.amount_cents) ∧
        (∀ m, mx = some m → x.amount_cents ≤ m)) ∧
      (∀ st s, filt st am mn mx x = filt st am mn mx { x with status_raw := s }) := by
  intro am mn mx x
  refine ⟨?_, ?_, fun st s => rfl⟩
  · unfold filt
    cases am <;> cases mn <;> cases mx <;>
      simp [Option.elim]
  · unfold filt
    cases am <;> cases mn <;> cases mx <;>
      simp [Option.elim] <;> omega

/-! ## Lemmas: stable descending sort -/

theorem filter_orderedInsert (key : Enriched → ℤ) (v : ℤ) (a : Enriched) :
    ∀ l : List Enriched,
      (List.orderedInsert (fun p q => key q ≤ key p) a l).filter (fun x => key x == v) =
        if key a == v then a :: l.filter (fun x => key x == v)
        else l.filter (fun x => key x == v) := by
  intro l
  induction l with
  | nil =>
    by_cases hv : (key a == v) = true <;>
      simp [List.orderedInsert, List.filter_cons, hv]
  | cons b t ih =>
    by_cases hv : (key a == v) = true
    · rw [if_pos hv]
      unfold List.orderedInsert
      split_ifs with hr
      · rw [List.filter_cons, if_pos hv]
      · have hab : key a < key b := not_le.mp hr
        have ha : key a = v := beq_iff_eq.mp hv
        have hb : (key b == v) = false := by
          rw [beq_eq_false_iff_ne]
          omega
        rw [List.filter_cons, hb, List.filter_cons, hb]
        simp only [Bool.false_eq_true, if_false]
        rw [ih, if_pos hv]
    · rw [if_neg hv]
      unfold List.orderedInsert
      split_ifs with hr
      · rw [List.filter_cons (p := fun x => key x == v), if_neg hv]
      · rw [List.filter_cons, List.filter_cons, ih, if_neg hv]

theorem filter_sortDescBy (key : Enriched → ℤ) (v : ℤ) (l : List Enriched) :
    (sortDescBy key l).filter (fun x => key x == v) = l.filter (fun x => key x == v) := by
  induction l with
  | nil => rfl
  | cons a t ih =>
    show (List.orderedInsert _ a (List.insertionSort _ t)).filter _ = _
    rw [filter_orderedInsert]
    unfold sortDescBy at ih
    rw [ih, List.filter_cons]

theorem pairwise_sortDescBy (key : Enriched → ℤ) (l : List Enriched) :
    (sortDescBy key l).Pairwise (fun p q => key q ≤ key p) := by
  haveI : IsTotal Enriched (fun p q => key q ≤ key p) :=
    ⟨fun p q => le_total (key q) (key p)⟩
  haveI : IsTrans Enriched (fun p q => key q ≤ key p) :=
    ⟨fun p q r h1 h2 => le_trans h2 h1⟩
  exact List.sorted_insertionSort _ l

theorem perm_sortDescBy (key : Enriched → ℤ) (l : List Enriched) :
    (sortDescBy key l).Perm l :=
  List.perm_insertionSort _ l

theorem sortStep_length (s : String) (l : List Enriched) :
    (sortStep s l).length = l.length := by
  unfold sortStep sortDescBy
  split_ifs <;> exact List.length_insertionSort _ _

/-! ## Lemmas: pagination -/

theorem chunks_flatten (k : ℕ) (_hk : 0 < k) :
    ∀ (n : ℕ) (l : List Enriched), l.length ≤ k * n →
      ((List.range n).map (fun i => (l.drop (i * k)).take k)).flatten = l := by
  intro n
  induction n with
  | zero =>
    intro l hl
    simp only [Nat.mul_zero, Nat.le_zero] at hl
    rw [List.length_eq_zero.mp hl]
    rfl
  | succ n ih =>
    intro l hl
    rw [List.range_succ_eq_map, List.map_cons, List.map_map, List.flatten_cons]
    have hmap : (List.range n).map ((fun i => (l.drop (i * k)).take k) ∘ Nat.succ) =
        (List.range n).map (fun i => ((l.drop k).drop (i * k)).take k) := by
      apply List.map_congr_left
      intro i _
      show (l.drop (Nat.succ i * k)).take k = _
      rw [List.drop_drop, Nat.succ_mul, Nat.add_comm (i * k) k]
    have hlen : (l.drop k).length ≤ k * n := by
      rw [List.length_drop]
      have hmul : k * (n + 1) = k * n + k := by ring
      omega
    rw [hmap, ih (l.drop k) hlen]
    simp [List.take_append_drop]

/-! ## Claim theorems: query pipeline -/

/-- C5: the total count returned by the query pipeline equals the size of
the filtered set before pagination and does not depend on limit or offset;
it is returned out-of-band from the page (as the second component of the
result, surfaced as the X-Total-Count header). -/
theorem total_count_correct :
    ∀ (l : List Enriched) (st : Option String) (am mn mx : Option ℤ)
      (sort : String) (lim off : ℕ),
      (query_invoices l st am mn mx sort lim off).2 =
        (l.filter (filt st am mn mx)).length ∧
      (∀ lim' off' : ℕ, (query_invoices l st am mn mx sort lim off).2 =
        (query_invoices l st am mn mx sort lim' off').2) := by
  intro l st am mn mx sort lim off
  constructor
  · show (sortStep sort (l.filter (filt st am mn mx))).length = _
    exact sortStep_length _ _
  · intro lim' off'
    rfl

/-- C6: the returned page is the slice `[offset, offset+limit)` of the
sorted filtered list; a slice starting beyond the end is empty rather than
an error; and concatenating the consecutive pages of width `k` (offsets
`0, k, 2k, ...`) reconstructs the whole sorted filtered sequence with no
duplicates or gaps. -/
theorem pagination_correct :
    ∀ (l : List Enriched) (st : Option String) (am mn mx : Option ℤ)
      (sort : String) (lim off k n : ℕ),
      0 < k →
      (sortStep sort (l.filter (filt st am mn mx))).length ≤ k * n →
      ((query_invoices l st am mn mx sort lim off).1 =
        ((sortStep sort (l.filter (filt st am mn mx))).drop off).take lim) ∧
      ((sortStep sort (l.filter (filt st am mn mx))).length ≤ off →
        (query_invoices l st am mn mx sort lim off).1 = []) ∧
      ((List.range n).map
        (fun i => (query_invoices l st am mn mx sort k (i * k)).1)).flatten =
        sortStep sort (l.filter (filt st am mn mx)) := by
  intro l st am mn mx sort lim off k n hk hn
  refine ⟨rfl, ?_, ?_⟩
  · intro hoff
    show ((sortStep sort (l.filter (filt st am mn mx))).drop off).take lim = []
    rw [List.drop_eq_nil_of_le hoff]
    exact List.take_nil
  · exact chunks_flatten k hk n _ hn

/-- Witness for C6 at a concrete record list: pages of width 2 cover a
3-element filtered list, and an offset past the end yields the empty page. -/
theorem pagination_correct_witness :
    (((List.range 2).map
      (fun i => (query_invoices
        [{ id := 1, customer := "a", customer_email := none, number := "n1",
           amount_cents := 5, days_overdue := 3, score := 0, impact := 9,
           status_raw := "open" },
         { id := 2, customer := "b", customer_email := none, number := "n2",
           amount_cents := 7, days_overdue := 1, score := 0, impact := 4,
           status_raw := "open" },
         { id := 3, customer := "c", customer_email := none, number := "n3",
           amount_cents := 6, days_overdue := 2, score := 0, impact := 6,
           status_raw := "open" }]
        none none none none "impact_desc" 2 (i * 2)).1)).flatten =
      sortStep "impact_desc" (List.filter (filt none none none none)
        [{ id := 1, customer := "a", customer_email := none, number := "n1",
           amount_cents := 5, days_overdue := 3, score := 0, impact := 9,
           status_raw := "open" },
         { id := 2, customer := "b", customer_email := none, number := "n2",
           amount_cents := 7, days_overdue := 1, score := 0, impact := 4,
           status_raw := "open" },
         { id := 3, customer := "c", customer_email := none, number := "n3",
           amount_cents := 6, days_overdue := 2, score := 0, impact := 6,
           status_raw := "open" }])) ∧
    (query_invoices
        [{ id := 1, customer := "a", customer_email := none, number := "n1",
           amount_cents := 5, days_overdue := 3, score := 0, impact := 9,
           status_raw := "open" }]
        none none none none "impact_desc" 2 7).1 = [] := by
  refine ⟨?_, ?_⟩
  · exact (pagination_correct _ none none none none "impact_desc" 2 0 2 2
      (by decide) (by decide)).2.2
  · exact (pagination_correct _ none none none none "impact_desc" 2 7 1 1
      (by decide) (by decide)).2.1 (by decide)

/-- C7: the query pipeline sorts descending by `amount_cents` for
"amount_desc", by `days_overdue` for "days_desc", and by `impact` for
"impact_desc" as well as for every unrecognized sort key (which is not an
error); each sort is a permutation of its input and is stable (records
with equal sort key keep their relative pre-sort order, expressed as
filter-invariance for every key value). -/
theorem sort_semantics :
    ∀ l : List Enriched,
      ((sortStep "amount_desc" l).Perm l ∧
        (sortStep "amount_desc" l).Pairwise (fun p q => q.amount_cents ≤ p.amount_cents) ∧
        (∀ v, (sortStep "amount_desc" l).filter (fun x => x.amount_cents == v) =
          l.filter (fun x => x.amount_cents == v))) ∧
      ((sortStep "days_desc" l).Perm l ∧
        (sortStep "days_desc" l).Pairwise
          (fun p q => (q.days_overdue : ℤ) ≤ (p.days_overdue : ℤ)) ∧
        (∀ v, (sortStep "days_desc" l).filter (fun x => (x.days_overdue : ℤ) == v) =
          l.filter (fun x => (x.days_overdue : ℤ) == v))) ∧
      ((sortStep "impact_desc" l).Perm l ∧
        (sortStep "impact_desc" l).Pairwise (fun p q => q.impact ≤ p.impact) ∧
        (∀ v, (sortStep "impact_desc" l).filter (fun x => x.impact == v) =
          l.filter (fun x => x.impact == v))) ∧
      (∀ s : String, s ≠ "amount_desc" → s ≠ "days_desc" →
        sortStep s l = sortStep "impact_desc" l) := by
  intro l
  have hamount : sortStep "amount_desc" l = sortDescBy (fun x => x.amount_cents) l := by
    unfold sortStep
    rfl
  have hdays : sortStep "days_desc" l = sortDescBy (fun x => (x.days_overdue : ℤ)) l := by
    unfold sortStep
    rfl
  have himpact : sortStep "impact_desc" l = sortDescBy (fun x => x.impact) l := by
    unfold sortStep
    rfl
  refine ⟨⟨?_, ?_, ?_⟩, ⟨?_, ?_, ?_⟩, ⟨?_, ?_, ?_⟩, ?_⟩
  · rw [hamount]; exact perm_sortDescBy _ l
  · rw [hamount]; exact pairwise_sortDescBy _ l
  · intro v; rw [hamount]; exact filter_sortDescBy _ v l
  · rw [hdays]; exact perm_sortDescBy _ l
  · rw [hdays]; exact pairwise_sortDescBy _ l
  · intro v; rw [hdays]; exact filter_sortDescBy _ v l
  · rw [himpact]; exact perm_sortDescBy _ l
  · rw [himpact]; exact pairwise_sortDescBy _ l
  · intro v; rw [himpact]; exact filter_sortDescBy _ v l
  · intro s hs1 hs2
    unfold sortStep
    rw [if_neg (by simp [hs1]), if_neg (by simp [hs2])]
    rfl

/-- Witness for C7: an unknown sort key falls back to the impact order. -/
theorem sort_semantics_witness :
    sortStep "bogus"
      [{ id := 1, customer := "a", customer_email := none, number := "n1",
         amount_cents := 5, days_overdue := 3, score := 0, impact := 9,
         status_raw := "open" }] =
    sortStep "impact_desc"
      [{ id := 1, customer := "a", customer_email := none, number := "n1",
         amount_cents := 5, days_overdue := 3, score := 0, impact := 9,
         status_raw := "open" }] :=
  (sort_semantics _).2.2.2 "bogus" (by decide) (by decide)

/-! ## Lemmas: literal replacement (`str.replace`) -/

theorem replaceAllGo_congr (pat rep : List Char) :
    ∀ (f g : ℕ) (s : List Char), s.length ≤ f → s.length ≤ g →
      replaceAllGo pat rep f s = replaceAllGo pat rep g s := by
  intro f
  induction f with
  | zero =>
    intro g s hf _
    rw [List.length_eq_zero.mp (Nat.le_zero.mp hf)]
    cases g <;> rfl
  | succ f ih =>
    intro g s hf hg
    cases s with
    | nil => cases g <;> rfl
    | cons c cs =>
      cases g with
      | zero => simp at hg
      | succ g =>
        simp only [replaceAllGo]
        split_ifs with h
        · have hplen : 1 ≤ pat.length := by
            cases pat with
            | nil => exact absurd rfl h.1
            | cons p ps => simp
          have hd : ((c :: cs).drop pat.length).length ≤ cs.length := by
            rw [List.length_drop, List.length_cons]
            omega
          simp only [List.length_cons] at hf hg
          rw [ih g _ (by omega) (by omega)]
        · simp only [List.length_cons] at hf hg
          rw [ih g cs (by omega) (by omega)]

theorem replaceAllChars_cons (pat rep : List Char) (c : Char) (cs : List Char) :
    replaceAllChars pat rep (c :: cs) =
      if pat ≠ [] ∧ pat.isPrefixOf (c :: cs) then
        rep ++ replaceAllChars pat rep ((c :: cs).drop pat.length)
      else c :: replaceAllChars pat rep cs := by
  unfold replaceAllChars
  show replaceAllGo pat rep (cs.length + 1) (c :: cs) = _
  simp only [replaceAllGo]
  split_ifs with h
  · have hplen : 1 ≤ pat.length := by
      cases pat with
      | nil => exact absurd rfl h.1
      | cons p ps => simp
    congr 1
    apply replaceAllGo_congr
    · rw [List.length_drop, List.length_cons]
      omega
    · exact le_rfl
  · rfl

theorem replaceAllChars_append_lit (pat rep : List Char) (hpat : pat.head? = some '{') :
    ∀ (s t : List Char), (∀ c ∈ s, c ≠ '{') →
      replaceAllChars pat rep (s ++ t) = s ++ replaceAllChars pat rep t := by
  intro s
  induction s with
  | nil => intro t _; rfl
  | cons c s' ih =>
    intro t hs
    rw [List.cons_append, replaceAllChars_cons]
    rw [if_neg ?hno, ih t (fun x hx => hs x (List.mem_cons_of_mem _ hx)), List.cons_append]
    case hno =>
      rintro ⟨hne, hpre⟩
      cases pat with
      | nil => exact hne rfl
      | cons p pt =>
        have hp : p = '{' := by simpa using hpat
        simp only [List.isPrefixOf, Bool.and_eq_true, beq_iff_eq] at hpre
        exact hs c (List.mem_cons_self _ _) (hpre.1 ▸ hp)

theorem replaceAllChars_token_hit (k rep t : List Char) :
    replaceAllChars ('{' :: k ++ ['}']) rep ('{' :: (k ++ '}' :: t)) =
      rep ++ replaceAllChars ('{' :: k ++ ['}']) rep t := by
  have hshape : ('{' :: k ++ ['}']) ++ t = '{' :: (k ++ '}' :: t) := by simp
  have hpre : ('{' :: k ++ ['}']).isPrefixOf ('{' :: (k ++ '}' :: t)) = true := by
    rw [← hshape]
    exact List.isPrefixOf_iff_prefix.mpr (List.prefix_append _ _)
  have hdrop : ('{' :: (k ++ '}' :: t)).drop ('{' :: k ++ ['}']).length = t := by
    rw [← hshape]
    exact List.drop_left _ _
  rw [replaceAllChars_cons, if_pos ⟨List.cons_ne_nil _ _, hpre⟩, hdrop]

theorem isNameChar_ne_braces {c : Char} (h : isNameChar c = true) :
    c ≠ '{' ∧ c ≠ '}' := by
  constructor <;> rintro rfl <;> exact absurd h (by decide)

theorem prefix_name_eq :
    ∀ (k n t : List Char), (∀ c ∈ k, isNameChar c = true) →
      (∀ c ∈ n, isNameChar c = true) →
      (k ++ ['}']).isPrefixOf (n ++ '}' :: t) = true → k = n := by
  intro k
  induction k with
  | nil =>
    intro n t _ hn hp
    cases n with
    | nil => rfl
    | cons c n' =>
      exfalso
      simp only [List.nil_append, List.cons_append, List.isPrefixOf,
        Bool.and_eq_true, beq_iff_eq] at hp
      exact (isNameChar_ne_braces (hn c (List.mem_cons_self _ _))).2 hp.1.symm
  | cons a k' ih =>
    intro n t hk hn hp
    cases n with
    | nil =>
      exfalso
      simp only [List.cons_append, List.nil_append, List.isPrefixOf,
        Bool.and_eq_true, beq_iff_eq] at hp
      exact (isNameChar_ne_braces (hk a (List.mem_cons_self _ _))).2 hp.1
    | cons c n' =>
      simp only [List.cons_append, List.isPrefixOf, Bool.and_eq_true, beq_iff_eq] at hp
      obtain ⟨heq, hp'⟩ := hp
      subst heq
      rw [ih n' t (fun x hx => hk x (List.mem_cons_of_mem _ hx))
        (fun x hx => hn x (List.mem_cons_of_mem _ hx)) hp']

theorem replaceAllChars_token_skip (k rep n t : List Char)
    (hk : ∀ c ∈ k, isNameChar c = true)
    (hn : ∀ c ∈ n, isNameChar c = true) (hne : n ≠ k) :
    replaceAllChars ('{' :: k ++ ['}']) rep ('{' :: (n ++ '}' :: t)) =
      '{' :: (n ++ '}' :: replaceAllChars ('{' :: k ++ ['}']) rep t) := by
  rw [replaceAllChars_cons, if_neg ?hno]
  case hno =>
    rintro ⟨_, hpre⟩
    simp only [List.cons_append, List.isPrefixOf, Bool.and_eq_true, beq_iff_eq] at hpre
    exact hne (prefix_name_eq k n t hk hn hpre.2).symm
  · rw [show n ++ '}' :: t = (n ++ ['}']) ++ t from by simp,
      replaceAllChars_append_lit ('{' :: k ++ ['}']) rep rfl (n ++ ['}']) t ?hchars]
    · simp
    case hchars =>
      intro c hc
      rcases List.mem_append.mp hc with hcn | hcs
      · exact (isNameChar_ne_braces (hn c hcn)).1
      · rw [List.mem_singleton.mp hcs]
        decide

/-! ## Lemmas: cleanup pass (token deletion) -/

theorem dropWhile_len_le (p : Char → Bool) :
    ∀ l : List Char, (l.dropWhile p).length ≤ l.length := by
  intro l
  induction l with
  | nil => simp
  | cons c cs ih =>
    rw [List.dropWhile_cons]
    split_ifs
    · simp only [List.length_cons]
      omega
    · exact le_rfl

theorem stripGo_congr :
    ∀ (f g : ℕ) (s : List Char), s.length ≤ f → s.length ≤ g →
      stripGo f s = stripGo g s := by
  intro f
  induction f with
  | zero =>
    intro g s hf _
    rw [List.length_eq_zero.mp (Nat.le_zero.mp hf)]
    cases g <;> rfl
  | succ f ih =>
    intro g s hf hg
    cases s with
    | nil => cases g <;> rfl
    | cons c cs =>
      cases g with
      | zero => simp at hg
      | succ g =>
        simp only [stripGo]
        split_ifs with h
        · have h1 := dropWhile_len_le isNameChar cs
          have h2 : (cs.dropWhile isNameChar).tail.length =
              (cs.dropWhile isNameChar).length - 1 := List.length_tail _
          simp only [List.length_cons] at hf hg
          rw [ih g _ (by omega) (by omega)]
        · simp only [List.length_cons] at hf hg
          rw [ih g cs (by omega) (by omega)]

theorem stripTokens_cons (c : Char) (cs : List Char) :
    stripTokens (c :: cs) =
      if c = '{' ∧ cs.takeWhile isNameChar ≠ [] ∧
          (cs.dropWhile isNameChar).head? = some '}' then
        stripTokens (cs.dropWhile isNameChar).tail
      else c :: stripTokens cs := by
  unfold stripTokens
  show stripGo (cs.length + 1) (c :: cs) = _
  simp only [stripGo]
  split_ifs with h
  · apply stripGo_congr
    · have h1 := dropWhile_len_le isNameChar cs
      have h2 : (cs.dropWhile isNameChar).tail.length =
          (cs.dropWhile isNameChar).length - 1 := List.length_tail _
      omega
    · exact le_rfl
  · rfl

theorem stripTokens_append_lit :
    ∀ (s t : List Char), (∀ c ∈ s, c ≠ '{') →
      stripTokens (s ++ t) = s ++ stripTokens t := by
  intro s
  induction s with
  | nil => intro t _; rfl
  | cons c s' ih =>
    intro t hs
    rw [List.cons_append, stripTokens_cons, if_neg ?hno,
      ih t (fun x hx => hs x (List.mem_cons_of_mem _ hx)), List.cons_append]
    case hno =>
      rintro ⟨hc, _⟩
      exact hs c (List.mem_cons_self _ _) hc

theorem takeWhile_name (n r : List Char) (hn : ∀ c ∈ n, isNameChar c = true) :
    (n ++ '}' :: r).takeWhile isNameChar = n ∧
    (n ++ '}' :: r).dropWhile isNameChar = '}' :: r := by
  induction n with
  | nil =>
    constructor
    · rw [List.nil_append, List.takeWhile_cons, if_neg (by decide)]
    · rw [List.nil_append, List.dropWhile_cons, if_neg (by decide)]
  | cons a n' ih =>
    have ha : isNameChar a = true := hn a (List.mem_cons_self _ _)
    have ih' := ih (fun c hc => hn c (List.mem_cons_of_mem _ hc))
    constructor
    · rw [List.cons_append, List.takeWhile_cons, if_pos ha, ih'.1]
    · rw [List.cons_append, List.dropWhile_cons, if_pos ha, ih'.2]

theorem stripTokens_token (n r : List Char) (hne : n ≠ [])
    (hn : ∀ c ∈ n, isNameChar c = true) :
    stripTokens ('{' :: (n ++ '}' :: r)) = stripTokens r := by
  obtain ⟨htake, hdrop⟩ := takeWhile_name n r hn
  rw [stripTokens_cons,
    if_pos ⟨rfl, by rw [htake]; exact hne, by rw [hdrop]; rfl⟩, hdrop,
    List.tail_cons]

/-! ## Lemmas: renderer on segmented templates -/

theorem piecesChars_cons (p : Piece) (ps : List Piece) :
    piecesChars (p :: ps) = pieceChars p ++ piecesChars ps := by
  unfold piecesChars
  rw [List.map_cons, List.flatten_cons]

theorem wfPiece_lit {s : String} (h : wfPiece (Piece.lit s) = true) :
    ∀ c ∈ s.data, c ≠ '{' := by
  intro c hc
  have := List.all_eq_true.mp h c hc
  simpa using this

theorem wfPiece_ph {n : String} (h : wfPiece (Piece.ph n) = true) :
    n.data ≠ [] ∧ ∀ c ∈ n.data, isNameChar c = true := by
  simp only [wfPiece, Bool.and_eq_true, List.all_eq_true, Bool.not_eq_true',
    List.isEmpty_eq_false] at h
  exact h

theorem wfEntry_parts {kv : String × Option PyVal} (h : wfEntry kv = true) :
    kv.1.data ≠ [] ∧ (∀ c ∈ kv.1.data, isNameChar c = true) ∧
      ∀ c ∈ (strOfVal kv.2).data, c ≠ '{' := by
  simp only [wfEntry, Bool.and_eq_true, List.all_eq_true, Bool.not_eq_true',
    List.isEmpty_eq_false] at h
  refine ⟨h.1.1, h.1.2, fun c hc => ?_⟩
  have := h.2 c hc
  simpa using this

theorem wfPiece_substPiece {k vs : String} (hv : ∀ c ∈ vs.data, c ≠ '{')
    {p : Piece} (hp : wfPiece p = true) : wfPiece (substPiece k vs p) = true := by
  cases p with
  | lit s => exact hp
  | ph n =>
    simp only [substPiece]
    split_ifs with h
    · refine List.all_eq_true.mpr fun c hc => ?_
      simpa using hv c hc
    · exact hp

theorem replace_pieces (k vs : String)
    (hk2 : ∀ c ∈ k.data, isNameChar c = true) :
    ∀ ps : List Piece, (∀ p ∈ ps, wfPiece p = true) →
      replaceAllChars ('{' :: k.data ++ ['}']) vs.data (piecesChars ps) =
        piecesChars (ps.map (substPiece k vs)) := by
  intro ps
  induction ps with
  | nil => intro _; rfl
  | cons p ps' ih =>
    intro hwf
    have hwfp := hwf p (List.mem_cons_self _ _)
    have hwf' : ∀ q ∈ ps', wfPiece q = true :=
      fun q hq => hwf q (List.mem_cons_of_mem _ hq)
    rw [piecesChars_cons, List.map_cons, piecesChars_cons]
    cases p with
    | lit s =>
      rw [show pieceChars (substPiece k vs (Piece.lit s)) = s.data from rfl]
      rw [show pieceChars (Piece.lit s) = s.data from rfl]
      rw [replaceAllChars_append_lit ('{' :: k.data ++ ['}']) vs.data rfl s.data _
        (wfPiece_lit hwfp), ih hwf']
    | ph n =>
      have hshape : pieceChars (Piece.ph n) ++ piecesChars ps' =
          '{' :: (n.data ++ '}' :: piecesChars ps') := by
        simp [pieceChars]
      rw [hshape]
      by_cases hnk : n = k
      · subst hnk
        rw [replaceAllChars_token_hit n.data vs.data (piecesChars ps'), ih hwf']
        rw [show substPiece n vs (Piece.ph n) = Piece.lit vs from by
          simp [substPiece]]
        rfl
      · have hndata : n.data ≠ k.data := fun heq => hnk (String.ext heq)
        obtain ⟨hne, hnchars⟩ := wfPiece_ph hwfp
        rw [replaceAllChars_token_skip k.data vs.data n.data (piecesChars ps')
          hk2 hnchars hndata, ih hwf']
        rw [show substPiece k vs (Piece.ph n) = Piece.ph n from by
          simp [substPiece, hnk]]
        rw [show pieceChars (Piece.ph n) ++ piecesChars (ps'.map (substPiece k vs)) =
          '{' :: (n.data ++ '}' :: piecesChars (ps'.map (substPiece k vs))) from by
          simp [pieceChars]]

theorem substAll_nil (p : Piece) : substAll [] p = p := by
  cases p <;> rfl

theorem substAll_cons (kv : String × Option PyVal) (ctx' : Ctx) (p : Piece) :
    substAll (kv :: ctx') p = substAll ctx' (substPiece kv.1 (strOfVal kv.2) p) := by
  cases p with
  | lit s => rfl
  | ph n =>
    by_cases hn : kv.1 = n
    · simp [substAll, lookupCtx, List.find?_cons, substPiece, hn]
    · have hn' : n ≠ kv.1 := fun h => hn h.symm
      simp [substAll, lookupCtx, List.find?_cons, substPiece, hn, hn']

theorem fold_replace :
    ∀ (ctx : Ctx), (∀ kv ∈ ctx, wfEntry kv = true) →
    ∀ ps : List Piece, (∀ p ∈ ps, wfPiece p = true) →
      List.foldl
        (fun out kv => replaceAllChars ('{' :: kv.1.data ++ ['}']) (strOfVal kv.2).data out)
        (piecesChars ps) ctx =
      piecesChars (ps.map (substAll ctx)) := by
  intro ctx
  induction ctx with
  | nil =>
    intro _ ps _
    rw [List.foldl_nil, show substAll [] = id from funext substAll_nil, List.map_id]
  | cons kv ctx' ih =>
    intro hctx ps hps
    have hkv := hctx kv (List.mem_cons_self _ _)
    obtain ⟨hk1, hk2, hv⟩ := wfEntry_parts hkv
    rw [List.foldl_cons, replace_pieces kv.1 (strOfVal kv.2) hk2 ps hps]
    have hwf' : ∀ p ∈ ps.map (substPiece kv.1 (strOfVal kv.2)), wfPiece p = true := by
      intro p hp
      obtain ⟨q, hq, rfl⟩ := List.mem_map.mp hp
      exact wfPiece_substPiece hv (hps q hq)
    rw [ih (fun e he => hctx e (List.mem_cons_of_mem _ he)) _ hwf', List.map_map]
    congr 1
    apply List.map_congr_left
    intro p _
    exact (substAll_cons kv ctx' p).symm

theorem strip_resolved :
    ∀ (ps : List Piece) (ctx : Ctx), (∀ p ∈ ps, wfPiece p = true) →
      (∀ kv ∈ ctx, wfEntry kv = true) →
      stripTokens (piecesChars (ps.map (substAll ctx))) =
        (ps.map (resolvePiece ctx)).flatten := by
  intro ps
  induction ps with
  | nil => intro ctx _ _; rfl
  | cons p ps' ih =>
    intro ctx hps hctx
    have hp := hps p (List.mem_cons_self _ _)
    have hps' : ∀ q ∈ ps', wfPiece q = true :=
      fun q hq => hps q (List.mem_cons_of_mem _ hq)
    rw [List.map_cons, piecesChars_cons, List.map_cons, List.flatten_cons]
    cases p with
    | lit s =>
      rw [show substAll ctx (Piece.lit s) = Piece.lit s from rfl,
        show pieceChars (Piece.lit s) = s.data from rfl,
        stripTokens_append_lit s.data _ (wfPiece_lit hp), ih ctx hps' hctx]
      rfl
    | ph n =>
      cases hl : lookupCtx ctx n with
      | some val =>
        have hvchars : ∀ c ∈ (strOfVal val).data, c ≠ '{' := by
          unfold lookupCtx at hl
          cases hfind : List.find? (fun kv => kv.1 == n) ctx with
          | none => rw [hfind] at hl; simp at hl
          | some kv =>
            rw [hfind] at hl
            simp only [Option.map_some'] at hl
            have hmem := List.mem_of_find?_eq_some hfind
            have hparts := wfEntry_parts (hctx kv hmem)
            rw [← Option.some.inj hl]
            exact hparts.2.2
        rw [show substAll ctx (Piece.ph n) = Piece.lit (strOfVal val) from by
          simp [substAll, hl]]
        rw [show pieceChars (Piece.lit (strOfVal val)) = (strOfVal val).data from rfl,
          stripTokens_append_lit _ _ hvchars, ih ctx hps' hctx]
        rw [show resolvePiece ctx (Piece.ph n) = (strOfVal val).data from by
          simp [resolvePiece, hl]]
      | none =>
        rw [show substAll ctx (Piece.ph n) = Piece.ph n from by simp [substAll, hl]]
        obtain ⟨hne, hn⟩ := wfPiece_ph hp
        rw [show pieceChars (Piece.ph n) ++ piecesChars (ps'.map (substAll ctx)) =
            '{' :: (n.data ++ '}' :: piecesChars (ps'.map (substAll ctx))) from by
          simp [pieceChars]]
        rw [stripTokens_token n.data _ hne hn, ih ctx hps' hctx]
        rw [show resolvePiece ctx (Piece.ph n) = [] from by simp [resolvePiece, hl],
          List.nil_append]

/-! ## Claim theorems: template renderer -/

/-- C4: on any template made of brace-free literal segments and well-formed
placeholders, with a context whose keys are placeholder names and whose
values contain no opening brace, `_safe_format` replaces each occurrence of
a placeholder whose name is in the context by the textual form of the
context value (empty text for a null value) and deletes every remaining
placeholder token (unknown names resolve to empty text, never to the
literal token). -/
theorem safe_format_renders (ps : List Piece) (ctx : Ctx)
    (hps : ∀ p ∈ ps, wfPiece p = true) (hctx : ∀ kv ∈ ctx, wfEntry kv = true) :
    _safe_format (String.mk (piecesChars ps)) ctx =
      String.mk ((ps.map (resolvePiece ctx)).flatten) := by
  unfold _safe_format
  rw [show (String.mk (piecesChars ps)).data = piecesChars ps from rfl,
    fold_replace ctx hctx ps hps, strip_resolved ps ctx hps hctx]

/-- Witness for C4: the specification's round-trip scenario, with a context
entry (`promised_date`) that does not occur in the template and a null
value (`customer_email`) that substitutes as empty text. -/
theorem safe_format_renders_witness :
    _safe_format (String.mk (piecesChars
      [Piece.lit "Hi ", Piece.ph "customer_name", Piece.lit ", pay ",
       Piece.ph "amount_usd", Piece.lit " by ", Piece.ph "due_date",
       Piece.lit ".", Piece.ph "customer_email", Piece.ph "unknown_name"]))
      [("customer_name", some (PyVal.s "Acme Co")),
       ("amount_usd", some (PyVal.s "1,450.00 USD")),
       ("due_date", some (PyVal.s "2025-08-01")),
       ("customer_email", none),
       ("promised_date", some (PyVal.s "2025-09-01"))] =
    String.mk (([Piece.lit "Hi ", Piece.ph "customer_name", Piece.lit ", pay ",
       Piece.ph "amount_usd", Piece.lit " by ", Piece.ph "due_date",
       Piece.lit ".", Piece.ph "customer_email", Piece.ph "unknown_name"].map
        (resolvePiece
          [("customer_name", some (PyVal.s "Acme Co")),
           ("amount_usd", some (PyVal.s "1,450.00 USD")),
           ("due_date", some (PyVal.s "2025-08-01")),
           ("customer_email", none),
           ("promised_date", some (PyVal.s "2025-09-01"))])).flatten) :=
  safe_format_renders _ _ (by decide) (by decide)

/-- C10: a context value that itself contains placeholder-syntax text is
not reproduced verbatim: sequential literal replacement lets a later
context entry re-substitute it (customer_name = "{promised_date}" renders
as the promised date), and a token naming no context key is deleted by the
cleanup pass (customer_name = "{zzqq}" renders as empty text). -/
theorem safe_format_resubstitutes :
    (_safe_format "Hi {customer_name}"
      (render_ctxt { customer_name := some "{promised_date}",
                     promised_date := some "2025-12-01" } "2025-10-12") =
      "Hi 2025-12-01") ∧
    (_safe_format "Hi {customer_name}"
      (render_ctxt { customer_name := some "{promised_date}",
                     promised_date := some "2025-12-01" } "2025-10-12") ≠
      "Hi {promised_date}") ∧
    (_safe_format "Hi {customer_name}"
      (render_ctxt { customer_name := some "{zzqq}" } "2025-10-12") =
      "Hi ") := by
  refine ⟨by decide, by decide, by decide⟩

/-! ## Lemmas: decimal digits and thousands separators -/

theorem digitChar_digit {m : ℕ} (h : m < 10) : (Nat.digitChar m).isDigit = true := by
  interval_cases m <;> decide

theorem toDigitsCore_digits :
    ∀ (fuel n : ℕ) (ds : List Char), (∀ c ∈ ds, c.isDigit = true) →
      ∀ c ∈ Nat.toDigitsCore 10 fuel n ds, c.isDigit = true := by
  intro fuel
  induction fuel with
  | zero =>
    intro n ds hds
    simpa [Nat.toDigitsCore] using hds
  | succ fuel ih =>
    intro n ds hds
    simp only [Nat.toDigitsCore]
    have hstep : ∀ c ∈ Nat.digitChar (n % 10) :: ds, c.isDigit = true := by
      intro c hc
      rcases List.mem_cons.mp hc with rfl | hc'
      · exact digitChar_digit (Nat.mod_lt _ (by norm_num))
      · exact hds c hc'
    split_ifs with h
    · exact hstep
    · exact ih (n / 10) _ hstep

theorem digitsOf_digits (n : ℕ) : ∀ c ∈ digitsOf n, c.isDigit = true :=
  toDigitsCore_digits (n + 1) n [] (by simp)

theorem digit_ne_comma {c : Char} (h : c.isDigit = true) : (c != ',') = true := by
  rw [bne_iff_ne]
  rintro rfl
  exact absurd h (by decide)

theorem filter_insertCommasRev :
    ∀ l : List Char, (insertCommasRev l).filter (fun c => c != ',') =
      l.filter (fun c => c != ',') := by
  intro l
  induction l using insertCommasRev.induct with
  | case1 d1 d2 d3 d4 rest ih =>
    simp only [insertCommasRev, List.filter_cons, ih]
    norm_num
  | case2 l h =>
    rcases l with _ | ⟨d1, _ | ⟨d2, _ | ⟨d3, _ | ⟨d4, rest⟩⟩⟩⟩
    · rfl
    · rfl
    · rfl
    · rfl
    · exact absurd rfl (h d1 d2 d3 d4 rest)

theorem commaFmt_strip (n : ℕ) :
    (commaFmt n).data.filter (fun c => c != ',') = digitsOf n := by
  unfold commaFmt
  rw [show (String.mk ((insertCommasRev (digitsOf n).reverse).reverse)).data =
    (insertCommasRev (digitsOf n).reverse).reverse from rfl]
  rw [List.filter_reverse, filter_insertCommasRev, List.filter_reverse,
    List.reverse_reverse]
  exact List.filter_eq_self.mpr fun c hc => digit_ne_comma (digitsOf_digits n c hc)

/-! ## Claim theorems: amount formatting -/

/-- C9: for every non-negative amount in minor units and nonempty currency
code, `_format_amount` renders the major units with thousands separators
(`commaFmt`, whose non-comma characters are exactly the decimal digits of
the quotient) and exactly two decimal digits, then a space and the code;
an absent amount yields empty text; 145000 minor units with "USD" render
as "1,450.00 USD". -/
theorem format_amount_correct :
    (∀ (a : ℕ) (c : String), c ≠ "" →
      _format_amount (some (a : ℤ)) (some c) =
        commaFmt (a / 100) ++ "." ++ twoDigits (a % 100) ++ " " ++ c) ∧
    (∀ c, _format_amount none c = "") ∧
    (∀ n : ℕ, (commaFmt n).data.filter (fun ch => ch != ',') = digitsOf n) ∧
    _format_amount (some 145000) (some "USD") = "1,450.00 USD" := by
  refine ⟨?_, fun c => rfl, commaFmt_strip, by decide⟩
  intro a c hc
  simp only [_format_amount]
  rw [if_neg hc, if_neg (not_lt.mpr (Int.natCast_nonneg a)), Int.natAbs_ofNat]
  simp

/-- Witness for C9: the general format applied at 145000 minor units of
"USD". -/
theorem format_amount_correct_witness :
    _format_amount (some ((145000 : ℕ) : ℤ)) (some "USD") =
      commaFmt (145000 / 100) ++ "." ++ twoDigits (145000 % 100) ++ " " ++ "USD" :=
  format_amount_correct.1 145000 "USD" (by decide)
